import Mathlib

/-!
Verification of the Schedule recurrence-policy engine (Schedule.ts).

The TypeScript module compiles every schedule to an effectful factory that
produces a fresh, stateful step function per driver.  We embed this shallowly:

* Timestamps and durations are rational milliseconds (JavaScript numbers are
  modelled as exact rationals; the values exercised here are exact in both).
* A step-function call returns a `StepResult`: `Continue(output, delay)` on
  the success channel or `Done(output)` on the termination channel, exactly
  the tagged protocol of the module (`Pull` success vs `Cause.done`).  The
  schedules and combinators studied here never fail, so no failure case is
  needed.
* The mutable closure state of a driver (attempt counters, previous
  timestamp, sequential-phase pointer, reduction accumulator) becomes an
  explicit state type threaded through `step`.
-/

namespace ScheduleSpec

/-- One result of a step-function call: `cont output delay` is the
`Continue` case (recur after `delay`), `done output` is the terminal
`Done` case delivered on the termination channel. -/
inductive StepResult (O : Type) where
  | cont (output : O) (delay : ℚ)
  | done (output : O)
deriving DecidableEq

/-- A driven schedule: the state type of one extracted step function, its
initial state (the mutable closure variables at extraction time), and the
step function itself, `(state, now, input) -> (state, StepResult)`. -/
structure Schedule (I O : Type) where
  σ : Type
  init : σ
  step : σ → ℚ → I → σ × StepResult O

/-- State of `metadataFn`: the call counter `n`, the previous call time and
the first call time, all initially unset. -/
structure MetaState where
  n : ℕ
  previous : Option ℚ
  start : Option ℚ
deriving DecidableEq

def MetaState.initial : MetaState := ⟨0, none, none⟩

/-- Metadata handed to schedule bodies: mirrors the `InputMetadata` record
(`input`, 1-based `attempt`, `start`, `now`, `elapsed = now - start`,
`elapsedSincePrevious`). -/
structure InputMetadata (I : Type) where
  input : I
  attempt : ℕ
  start : ℚ
  now : ℚ
  elapsed : ℚ
  elapsedSincePrevious : ℚ

/-- The per-driver metadata tracker `metadataFn`: on each call it increments
the attempt counter, snapshots `start` on first use and derives both elapsed
metrics from the caller-supplied `now`. -/
def metadataFn (ms : MetaState) (now : ℚ) (input : I) :
    MetaState × InputMetadata I :=
  let start := ms.start.getD now
  let elapsed := now - start
  let esp := match ms.previous with
    | none => 0
    | some p => now - p
  (⟨ms.n + 1, some now, some start⟩,
   ⟨input, ms.n + 1, start, now, elapsed, esp⟩)

/-- `fromStepWithMetadata`: builds a schedule from a body that consumes the
metadata of the current call; the only driver state is the metadata
tracker. -/
def fromStepWithMetadata (f : InputMetadata I → StepResult O) :
    Schedule I O :=
  ⟨MetaState, MetaState.initial, fun ms now input =>
    let p := metadataFn ms now input
    (p.1, f p.2)⟩

/-- Extended metadata including the output and delay of the current inner
step, as passed to `while` predicates. -/
structure Metadata (O I : Type) extends InputMetadata I where
  output : O
  duration : ℚ

/-- `spaced(d)`: always continues, constant delay `d`, output is the 0-based
attempt count (`meta.attempt - 1`). -/
def spaced {I : Type} (d : ℚ) : Schedule I ℕ :=
  fromStepWithMetadata fun meta => .cont (meta.attempt - 1) d

/-- `forever = spaced(0)`. -/
def forever {I : Type} : Schedule I ℕ := spaced 0

/-- The `while` combinator: runs the inner step; on `Continue` it consults
the predicate with its own fresh metadata tracker (advanced only on this
branch, as the source flatMaps on the success channel) and downgrades the
result to `Done(output)` when the predicate fails; an inner `Done` passes
through untouched on the termination channel. -/
def while_ (self : Schedule I O) (p : Metadata O I → Bool) : Schedule I O :=
  ⟨self.σ × MetaState, (self.init, MetaState.initial), fun s now input =>
    match self.step s.1 now input with
    | (s', .cont o d) =>
      let m := metadataFn s.2 now input
      if p ⟨m.2, o, d⟩ then ((s', m.1), .cont o d)
      else ((s', m.1), .done o)
    | (s', .done o) => ((s', s.2), .done o)⟩

/-- `recurs(times)`: a filter over the unbounded zero-delay counter,
continuing while `attempt <= times`. -/
def recurs {I : Type} (times : ℕ) : Schedule I ℕ :=
  while_ forever fun m => decide (m.attempt ≤ times)

/-- `take(n) = while(attempt <= n)`. -/
def take (self : Schedule I O) (n : ℕ) : Schedule I O :=
  while_ self fun m => decide (m.attempt ≤ n)

/-- Result of a `combine` callback of `reduce`: the source accepts either a
plain `State` (`sync`) or an effectful `Effect<State>` (`eff`), and branches
on `isEffect`. -/
inductive CombineRes (S : Type) where
  | sync (s : S)
  | eff (s : S)

def CombineRes.val : CombineRes S → S
  | .sync s => s
  | .eff s => s

/-- `reduce(initial, combine)` as written in the source: the captured
`state` variable is reassigned only on the effectful branch
(`state = nextState` inside `effect.map`); when `combine` returns a plain
value the new state is emitted but `state` keeps its old value.  The
terminal `Done` also applies `combine` to the running state. -/
def reduce (self : Schedule I O) (initial : Unit → S)
    (combine : S → O → CombineRes S) : Schedule I S :=
  ⟨self.σ × S, (self.init, initial ()), fun st now input =>
    match self.step st.1 now input with
    | (s', .cont o d) =>
      match combine st.2 o with
      | .sync next => ((s', st.2), .cont next d)
      | .eff next => ((s', next), .cont next d)
    | (s', .done o) => ((s', st.2), .done (combine st.2 o).val)⟩

/-- `collectWhile(predicate)`: `reduce` over `while(predicate)` with the
combine `(outputs, output) => { outputs.push(output); return outputs }`.
The push mutates the accumulator array in place, so the `state` variable
captured by `reduce` aliases every update even though the synchronous
branch never reassigns it; the pure translation of that aliasing is a state
update on every combine, i.e. an ordinary left fold appending each output. -/
def collectWhile (self : Schedule I O) (p : Metadata O I → Bool) :
    Schedule I (List O) :=
  ⟨(while_ self p).σ × List O, ((while_ self p).init, []), fun st now input =>
    match (while_ self p).step st.1 now input with
    | (s', .cont o d) => ((s', st.2 ++ [o]), .cont (st.2 ++ [o]) d)
    | (s', .done o) => ((s', st.2), .done (st.2 ++ [o]))⟩

/-- `collectOutputs = collectWhile(always true)`. -/
def collectOutputs (self : Schedule I O) : Schedule I (List O) :=
  collectWhile self fun _ => true

/-- `bothWith(self, other, combine)`: intersection.  The left step runs,
then the right step runs in every branch; while both continue the delay is
the max, and the instant either side is `Done` the combinator emits
`Done(combine(leftOutput, rightOutput))`. -/
def bothWith (a : Schedule I O₁) (b : Schedule I O₂)
    (f : O₁ → O₂ → O₃) : Schedule I O₃ :=
  ⟨a.σ × b.σ, (a.init, b.init), fun s now input =>
    match a.step s.1 now input with
    | (sa, .cont o₁ d₁) =>
      match b.step s.2 now input with
      | (sb, .cont o₂ d₂) => ((sa, sb), .cont (f o₁ o₂) (max d₁ d₂))
      | (sb, .done o₂) => ((sa, sb), .done (f o₁ o₂))
    | (sa, .done o₁) =>
      match b.step s.2 now input with
      | (sb, .cont o₂ _) => ((sa, sb), .done (f o₁ o₂))
      | (sb, .done o₂) => ((sa, sb), .done (f o₁ o₂))⟩

/-- `both = bothWith(..., tuple)`. -/
def both (a : Schedule I O₁) (b : Schedule I O₂) : Schedule I (O₁ × O₂) :=
  bothWith a b Prod.mk

/-- `eitherWith(self, other, combine)`: union.  While both continue the
delay is the min; when exactly one side is `Done` the combinator keeps
continuing with the delay of the still-continuing side; it is `Done` only
when both sides are. -/
def eitherWith (a : Schedule I O₁) (b : Schedule I O₂)
    (f : O₁ → O₂ → O₃) : Schedule I O₃ :=
  ⟨a.σ × b.σ, (a.init, b.init), fun s now input =>
    match a.step s.1 now input with
    | (sa, .cont o₁ d₁) =>
      match b.step s.2 now input with
      | (sb, .cont o₂ d₂) => ((sa, sb), .cont (f o₁ o₂) (min d₁ d₂))
      | (sb, .done o₂) => ((sa, sb), .cont (f o₁ o₂) d₁)
    | (sa, .done o₁) =>
      match b.step s.2 now input with
      | (sb, .cont o₂ d₂) => ((sa, sb), .cont (f o₁ o₂) d₂)
      | (sb, .done o₂) => ((sa, sb), .done (f o₁ o₂))⟩

/-- `either = eitherWith(..., tuple)`. -/
def either (a : Schedule I O₁) (b : Schedule I O₂) : Schedule I (O₁ × O₂) :=
  eitherWith a b Prod.mk

/-- `map(f)` on a step result: transforms the output of both the `Continue`
and the `Done` case, preserving the delay and the decision. -/
def mapResult (f : O → O₂) : StepResult O → StepResult O₂
  | .cont o d => .cont (f o) d
  | .done o => .done (f o)

/-- `map(self, f)` for a pure `f`. -/
def map (self : Schedule I O) (f : O → O₂) : Schedule I O₂ :=
  ⟨self.σ, self.init, fun s now input =>
    let p := self.step s now input
    (p.1, mapResult f p.2)⟩

/-- The sequential-phase pointer of `andThenResult` (`currentSide` /
`currentStep` in the source): either still driving the left schedule or
permanently switched to the right one. -/
inductive AndThenState (σa σb : Type) where
  | inA (s : σa)
  | inB (s : σb)

/-- `andThenResult(self, other)`: drives the left schedule until it signals
`Done`; that terminal value is caught (`Pull.catchDone`) and consumed, and
the very same call re-invokes the freshly extracted right step with the
same `(now, input)`.  Left outputs are tagged `Sum.inl` (the source tags
with `Result.succeed`), right outputs `Sum.inr` (`Result.fail`).  Once in
the right phase the wrapper is the bare right step, so the combinator never
switches back and the right `Done` terminates it. -/
def andThenResult (a : Schedule I O₁) (b : Schedule I O₂) :
    Schedule I (O₁ ⊕ O₂) :=
  ⟨AndThenState a.σ b.σ, .inA a.init, fun st now input =>
    match st with
    | .inA sa =>
      match a.step sa now input with
      | (sa', .cont o d) => (.inA sa', .cont (Sum.inl o) d)
      | (_, .done _) =>
        let p := b.step b.init now input
        (.inB p.1, mapResult Sum.inr p.2)
    | .inB sb =>
      let p := b.step sb now input
      (.inB p.1, mapResult Sum.inr p.2)⟩

/-- `andThen(self, other) = map(andThenResult(self, other), Result.merge)`:
both phases collapsed to one output type. -/
def andThen (a : Schedule I O) (b : Schedule I O) : Schedule I O :=
  map (andThenResult a b) (Sum.elim id id)

/-- JavaScript remainder `a % b` on rationals: `a - b * trunc(a / b)`
(truncation toward zero, matching the sign-of-dividend semantics). -/
def jsRem (a b : ℚ) : ℚ :=
  a - b * (if 0 ≤ a / b then (⌊a / b⌋ : ℤ) else (⌈a / b⌉ : ℤ))

/-- `fixed(interval)`: output is the 0-based attempt count and the delay is
`interval - (elapsed % interval)`, with zero delay when the interval is 0. -/
def fixed {I : Type} (w : ℚ) : Schedule I ℕ :=
  fromStepWithMetadata fun meta =>
    .cont (meta.attempt - 1) (if w = 0 then 0 else w - jsRem meta.elapsed w)

/-- `windowed(interval)`: transcribed from its own definition; the body
computes the same attempt count and the same
`interval - (elapsed % interval)` delay as `fixed` (the source differs only
in wrapping the body in `effect.sync` instead of `effect.succeed`). -/
def windowed {I : Type} (w : ℚ) : Schedule I ℕ :=
  fromStepWithMetadata fun meta =>
    .cont (meta.attempt - 1) (if w = 0 then 0 else w - jsRem meta.elapsed w)

/-- `duration(d)`: continue with output `d` and delay `d` on the first
attempt, and terminate with `Done(Duration.zero)` on every later call. -/
def duration {I : Type} (d : ℚ) : Schedule I ℚ :=
  fromStepWithMetadata fun meta =>
    if meta.attempt = 1 then .cont d d else .done 0

/-- The jitter factor applied to a delay of `millis` milliseconds for a
random draw `r`: `millis * 0.8 * (1 - r) + millis * 1.2 * r`. -/
def jitterFormula (millis r : ℚ) : ℚ :=
  millis * 0.8 * (1 - r) + millis * 1.2 * r

/-- `jittered`: `modifyDelay` with the fresh uniform draw of each
continuing step made explicit as a stream `rs` indexed by the number of
draws so far.  The random effect runs only on the `Continue` branch (the
source flatMaps on the success channel), so `Done` results pass through
with no draw consumed and the output and decision are never altered. -/
def jittered (self : Schedule I O) (rs : ℕ → ℚ) : Schedule I O :=
  ⟨self.σ × ℕ, (self.init, 0), fun s now input =>
    match self.step s.1 now input with
    | (s', .cont o d) => ((s', s.2 + 1), .cont o (jitterFormula d (rs s.2)))
    | (s', .done o) => ((s', s.2), .done o)⟩

/-- Drive a schedule from an explicit state through a list of
`(now, input)` calls, collecting each step result in order. -/
def traceFrom (m : Schedule I O) (s : m.σ) :
    List (ℚ × I) → List (StepResult O)
  | [] => []
  | c :: rest =>
    let p := m.step s c.1 c.2
    p.2 :: traceFrom m p.1 rest

/-- Drive a freshly extracted step function through a list of
`(now, input)` calls. -/
def trace (m : Schedule I O) (calls : List (ℚ × I)) : List (StepResult O) :=
  traceFrom m m.init calls

/-- The intersection decision table that §4.5 ascribes to `both`: continue
only while both sides continue, with the max delay; the instant either side
is `Done`, terminate with the combined outputs. -/
def bothResult (f : O₁ → O₂ → O₃) :
    StepResult O₁ → StepResult O₂ → StepResult O₃
  | .cont o₁ d₁, .cont o₂ d₂ => .cont (f o₁ o₂) (max d₁ d₂)
  | .cont o₁ _, .done o₂ => .done (f o₁ o₂)
  | .done o₁, .cont o₂ _ => .done (f o₁ o₂)
  | .done o₁, .done o₂ => .done (f o₁ o₂)

/-- The union decision table that §4.5 ascribes to `either`: continue while
either side continues, with the min delay while both continue and the delay
of the surviving side once one is `Done`; `Done` only when both are. -/
def eitherResult (f : O₁ → O₂ → O₃) :
    StepResult O₁ → StepResult O₂ → StepResult O₃
  | .cont o₁ d₁, .cont o₂ d₂ => .cont (f o₁ o₂) (min d₁ d₂)
  | .cont o₁ d₁, .done o₂ => .cont (f o₁ o₂) d₁
  | .done o₁, .cont o₂ d₂ => .cont (f o₁ o₂) d₂
  | .done o₁, .done o₂ => .done (f o₁ o₂)

/-- A list of `k` step calls all at time 0 with trivial input, the driver
interaction used throughout the concrete test properties of §8. -/
def callsAtZero (k : ℕ) : List (ℚ × Unit) := List.replicate k (0, ())

theorem jsRem_eq_fract (a b : ℚ) (ha : 0 ≤ a) (hb : 0 < b) :
    jsRem a b = b * Int.fract (a / b) := by
  have hdiv : 0 ≤ a / b := div_nonneg ha hb.le
  rw [jsRem, if_pos hdiv, Int.fract, mul_sub, mul_div_cancel₀ a hb.ne']

theorem fixed_delay_bounds (e w : ℚ) (he : 0 ≤ e) (hw : 0 < w) :
    0 < w - jsRem e w ∧ w - jsRem e w ≤ w := by
  rw [jsRem_eq_fract e w he hw]
  constructor
  · have : w * Int.fract (e / w) < w * 1 :=
      (mul_lt_mul_left hw).2 (Int.fract_lt_one _)
    linarith
  · have : 0 ≤ w * Int.fract (e / w) :=
      mul_nonneg hw.le (Int.fract_nonneg _)
    linarith

theorem fixed_step_eq {I : Type} (w : ℚ) (ms : MetaState) (now : ℚ)
    (input : I) :
    (fixed w).step ms now input
      = (⟨ms.n + 1, some now, some (ms.start.getD now)⟩,
         .cont ms.n
           (if w = 0 then 0 else w - jsRem (now - ms.start.getD now) w)) :=
  rfl

theorem fixed_traceFrom_spec {I : Type} (w : ℚ) (hw : 0 < w) (t0 : ℚ) :
    ∀ (calls : List (ℚ × I)) (ms : MetaState), ms.start = some t0 →
      (∀ c ∈ calls, t0 ≤ c.1) →
      ∀ r ∈ traceFrom (fixed w) ms calls,
        ∃ k e, 0 ≤ e ∧ r = .cont k (w - jsRem e w) ∧
          0 < w - jsRem e w ∧ w - jsRem e w ≤ w := by
  intro calls
  induction calls with
  | nil =>
    intro ms _ _ r hr
    simp [traceFrom] at hr
  | cons c rest ih =>
    intro ms hms hmono r hr
    have hnow : t0 ≤ c.1 := hmono c (List.mem_cons_self c rest)
    have he : (0 : ℚ) ≤ c.1 - t0 := by linarith
    have hstep : (fixed (I := I) w).step ms c.1 c.2
        = (⟨ms.n + 1, some c.1, some t0⟩,
           .cont ms.n (w - jsRem (c.1 - t0) w)) := by
      rw [fixed_step_eq, hms]
      simp [hw.ne']
    simp only [traceFrom, hstep] at hr
    rcases List.mem_cons.1 hr with h | htail
    · exact ⟨ms.n, c.1 - t0, he, h,
        (fixed_delay_bounds _ w he hw).1, (fixed_delay_bounds _ w he hw).2⟩
    · exact ih ⟨ms.n + 1, some c.1, some t0⟩ rfl
        (fun c hc => hmono c (List.mem_cons_of_mem _ hc)) r htail

/-- C4 (amended): for every interval greater than 0 and every call sequence
whose times never precede the first call (the monotonic clock of §4.2),
every step of `fixed(interval)` continues, its delay is exactly
`interval - (elapsed % interval)` for a nonnegative elapsed, and that delay
lies in the half-open range `(0, interval]`: it is strictly positive, never
negative, never a multi-tick burst, and at most one full interval.  The
delay equals `interval` exactly when `elapsed` is a multiple of the
interval (in particular on the very first call), so the range claimed by
the spec, `[0, interval)`, is off by the closed end. -/
theorem fixed_delay_formula_and_range {I : Type} (w : ℚ) (hw : 0 < w)
    (t0 : ℚ) (i0 : I) (rest : List (ℚ × I))
    (hmono : ∀ c ∈ rest, t0 ≤ c.1) :
    ∀ r ∈ trace (fixed w) ((t0, i0) :: rest),
      ∃ k e, 0 ≤ e ∧ r = .cont k (w - jsRem e w) ∧
        0 < w - jsRem e w ∧ w - jsRem e w ≤ w := by
  intro r hr
  have h1 : (fixed (I := I) w).step (fixed (I := I) w).init t0 i0
      = (⟨1, some t0, some t0⟩, .cont 0 (w - jsRem (t0 - t0) w)) := by
    show (fixed (I := I) w).step MetaState.initial t0 i0 = _
    rw [fixed_step_eq]
    simp [MetaState.initial, hw.ne']
  simp only [trace, traceFrom, h1] at hr
  rcases List.mem_cons.1 hr with h | htail
  · refine ⟨0, t0 - t0, by simp, h, ?_, ?_⟩
    · exact (fixed_delay_bounds _ w (by simp) hw).1
    · exact (fixed_delay_bounds _ w (by simp) hw).2
  · exact fixed_traceFrom_spec w hw t0 rest ⟨1, some t0, some t0⟩ rfl
      hmono r htail

/-- Witness for C4: instantiated at `fixed(1000)` driven by a single call
at time 0, whose trace is exactly `[Continue(0, 1000)]`. -/
theorem fixed_delay_formula_and_range_witness :
    ∃ k e, 0 ≤ e
      ∧ (StepResult.cont 0 1000 : StepResult ℕ)
          = .cont k (1000 - jsRem e 1000)
      ∧ 0 < 1000 - jsRem e 1000 ∧ 1000 - jsRem e 1000 ≤ 1000 := by
  have h1 : (fixed (I := Unit) 1000).step (fixed (I := Unit) 1000).init 0 ()
      = (⟨1, some 0, some 0⟩, .cont 0 1000) := by
    show (fixed (I := Unit) 1000).step MetaState.initial 0 () = _
    rw [fixed_step_eq]
    norm_num [MetaState.initial, jsRem]
  have hmem : (StepResult.cont 0 1000 : StepResult ℕ)
      ∈ trace (fixed (I := Unit) 1000) [((0 : ℚ), ())] := by
    simp [trace, traceFrom, h1]
  exact fixed_delay_formula_and_range 1000 (by norm_num) 0 () [] (by simp)
    (StepResult.cont 0 1000) hmem

/-- C4 (counterexample): the first call of `fixed(1000)` (elapsed 0, a
multiple of the interval) returns delay 1000, which is not strictly less
than the interval, refuting the claimed range `[0, 1000)`. -/
theorem fixed_first_delay_equals_interval :
    trace (fixed (I := Unit) 1000) [((0 : ℚ), ())] = [.cont 0 1000]
    ∧ ¬ ((1000 : ℚ) < 1000) := by
  constructor
  · have h1 : (fixed (I := Unit) 1000).step (fixed (I := Unit) 1000).init 0 ()
        = (⟨1, some 0, some 0⟩, .cont 0 1000) := by
      show (fixed (I := Unit) 1000).step MetaState.initial 0 () = _
      rw [fixed_step_eq]
      norm_num [MetaState.initial, jsRem]
    simp [trace, traceFrom, h1]
  · exact lt_irrefl 1000

/-- C2 (counterexample): a fresh step function of `recurs(3)` driven four
times does not end in `Done(2)`: the fourth call is `Done(3)`, because the
terminating call re-steps the underlying zero-delay counter (whose output
on attempt 4 is 3) and `while` emits that current output inside `Done`. -/
theorem recurs_three_counterexample :
    trace (recurs 3) (callsAtZero 4)
      ≠ [.cont 0 0, .cont 1 0, .cont 2 0, .done 2]
    ∧ (trace (recurs 3) (callsAtZero 4)).getLast? = some (.done 3) := by
  decide

/-- C2 (amended): for `recurs(3)` driven from one fresh step function, the
first three calls continue with outputs 0, 1, 2 and zero delay, and the
fourth call is `Done(3)` — the terminal output is the counter value of the
failing attempt, not the last continuing output. -/
theorem recurs_three_trace :
    trace (recurs 3) (callsAtZero 4)
      = [.cont 0 0, .cont 1 0, .cont 2 0, .done 3] := by
  decide

/-- C3 (counterexample): the final state emitted by
`collectOutputs(recurs(3))` is not `[0, 1, 2]`: the terminating `Done(3)`
of `recurs(3)` is also pushed by the reduction (`reduce` applies `combine`
to the terminal output as well), so the `Done` carries `[0, 1, 2, 3]`. -/
theorem collectOutputs_recurs_three_counterexample :
    (trace (collectOutputs (recurs 3)) (callsAtZero 4)).getLast?
      ≠ some (.done [0, 1, 2])
    ∧ (trace (collectOutputs (recurs 3)) (callsAtZero 4)).getLast?
      = some (.done [0, 1, 2, 3]) := by
  decide

/-- C3 (amended): `collectOutputs` over `recurs(3)`, driven until it
terminates, emits the states `[0]`, `[0,1]`, `[0,1,2]` while continuing and
terminates with `Done([0, 1, 2, 3])`: the three continuing outputs in
order, extended by the terminal `Done` output 3. -/
theorem collectOutputs_recurs_three_trace :
    trace (collectOutputs (recurs 3)) (callsAtZero 4)
      = [.cont [0] 0, .cont [0, 1] 0, .cont [0, 1, 2] 0,
         .done [0, 1, 2, 3]] := by
  decide

/-- C1 (code bug evaluation): with the synchronous combine
`(s, o) => s + o` and the lazy initial state 0 over `recurs(3)`, the third
continuing emission of `reduce` is 2 — `combine` applied to the
never-reassigned initial state — while the left fold of the first three
outputs 0, 1, 2 is 3, and the terminal `Done` carries 3 instead of the
fold extended by the terminal output (6).  The synchronous branch of
`reduce` returns the combined value without persisting it, unlike the
effectful branch. -/
theorem reduce_sync_combine_no_fold :
    trace (reduce (recurs 3) (fun _ => (0 : ℕ)) (fun s o => .sync (s + o)))
        (callsAtZero 4)
      = [.cont 0 0, .cont 1 0, .cont 2 0, .done 3]
    ∧ (2 : ℕ) ≠ List.foldl (fun s o => s + o) (0 : ℕ) [0, 1, 2]
    ∧ (3 : ℕ) ≠ List.foldl (fun s o => s + o) (0 : ℕ) [0, 1, 2] + 3 := by
  decide

/-- With an effectful combine (the branch that does reassign the captured
state), `reduce` over `recurs(3)` does fold: it emits 0, 0+1, 1+2 and
terminates with the fold extended by the terminal output, 3+3. -/
theorem reduce_eff_combine_folds :
    trace (reduce (recurs 3) (fun _ => (0 : ℕ)) (fun s o => .eff (s + o)))
        (callsAtZero 4)
      = [.cont 0 0, .cont 1 0, .cont 3 0, .done 6] := by
  decide

/-- C9: `fixed(interval)` and `windowed(interval)` are behaviourally
identical in the current design: for every interval and every sequence of
step calls, the two freshly extracted step functions produce equal traces
(same 0-based attempt-count outputs, same
`interval - (elapsed % interval)` delays, zero delay for interval 0). -/
theorem fixed_windowed_equivalent :
    ∀ (I : Type) (w : ℚ) (calls : List (ℚ × I)),
      trace (fixed w) calls = trace (windowed w) calls :=
  fun _ _ _ => rfl

theorem duration_step_eq {I : Type} (d : ℚ) (ms : MetaState) (now : ℚ)
    (input : I) :
    (duration d).step ms now input
      = (⟨ms.n + 1, some now, some (ms.start.getD now)⟩,
         if ms.n + 1 = 1 then .cont d d else .done 0) :=
  rfl

theorem duration_traceFrom_done {I : Type} (d : ℚ) :
    ∀ (calls : List (ℚ × I)) (ms : MetaState), 1 ≤ ms.n →
      traceFrom (duration d) ms calls
        = calls.map (fun _ => .done 0) := by
  intro calls
  induction calls with
  | nil => intro ms _; rfl
  | cons c rest ih =>
    intro ms h
    have hne : ¬ ms.n + 1 = 1 := by omega
    simp only [traceFrom, duration_step_eq, if_neg hne, List.map]
    exact congrArg _ (ih ⟨ms.n + 1, some c.1, some (ms.start.getD c.1)⟩
      (Nat.le_add_left 1 ms.n))

/-- C10: a fresh step function of `duration(d)` continues on its first call
with output `d` and delay `d`, and every subsequent call returns `Done`
carrying the zero duration — the terminal output is 0, not `d`. -/
theorem duration_once_spec :
    ∀ (I : Type) (d t0 : ℚ) (i0 : I) (rest : List (ℚ × I)),
      trace (duration d) ((t0, i0) :: rest)
        = .cont d d :: rest.map (fun _ => .done 0) := by
  intro I d t0 i0 rest
  have h1 : (duration (I := I) d).step (duration (I := I) d).init t0 i0
      = (⟨1, some t0, some t0⟩, .cont d d) := by
    show (duration (I := I) d).step MetaState.initial t0 i0 = _
    rw [duration_step_eq]
    simp [MetaState.initial]
  simp only [trace, traceFrom, h1]
  exact congrArg _ (duration_traceFrom_done d rest ⟨1, some t0, some t0⟩
    (by norm_num))

/-- C5: `bothWith` is the intersection: on every call the left step runs
and then the right step runs exactly once, both state components advance,
and the result follows the intersection table — continue with
`combine(outputs)` and the max of the two delays only while both sides
continue, and terminate with `Done(combine(outputs))` the instant either
side is `Done`, regardless of the other side.  Consequently
`both(recurs(2), recurs(4))` yields exactly 2 continuing steps before its
`Done`. -/
theorem both_intersection_spec :
    (∀ (I O₁ O₂ O₃ : Type) (a : Schedule I O₁) (b : Schedule I O₂)
        (f : O₁ → O₂ → O₃) (sa : a.σ) (sb : b.σ) (now : ℚ) (input : I),
        (bothWith a b f).step (sa, sb) now input
          = (((a.step sa now input).1, (b.step sb now input).1),
             bothResult f (a.step sa now input).2 (b.step sb now input).2))
    ∧ trace (both (recurs 2) (recurs 4)) (callsAtZero 3)
        = [.cont (0, 0) 0, .cont (1, 1) 0, .done (2, 2)] := by
  refine ⟨?_, by decide⟩
  intro I O₁ O₂ O₃ a b f sa sb now input
  rcases ha : a.step sa now input with ⟨sa', ra⟩
  rcases hb : b.step sb now input with ⟨sb', rb⟩
  cases ra <;> cases rb <;> simp [bothWith, bothResult, ha, hb]

/-- C6: `eitherWith` is the union: on every call both steps run, and the
result follows the union table — the min of the two delays while both
continue, the delay of the still-continuing side once exactly one side is
`Done` (the combinator keeps continuing), and `Done(combine(outputs))`
only when both sides are `Done`.  Consequently
`either(recurs(2), recurs(4))` yields exactly 4 continuing steps before
its `Done`. -/
theorem either_union_spec :
    (∀ (I O₁ O₂ O₃ : Type) (a : Schedule I O₁) (b : Schedule I O₂)
        (f : O₁ → O₂ → O₃) (sa : a.σ) (sb : b.σ) (now : ℚ) (input : I),
        (eitherWith a b f).step (sa, sb) now input
          = (((a.step sa now input).1, (b.step sb now input).1),
             eitherResult f (a.step sa now input).2 (b.step sb now input).2))
    ∧ trace (either (recurs 2) (recurs 4)) (callsAtZero 5)
        = [.cont (0, 0) 0, .cont (1, 1) 0, .cont (2, 2) 0, .cont (3, 3) 0,
           .done (4, 4)] := by
  refine ⟨?_, by decide⟩
  intro I O₁ O₂ O₃ a b f sa sb now input
  rcases ha : a.step sa now input with ⟨sa', ra⟩
  rcases hb : b.step sb now input with ⟨sb', rb⟩
  cases ra <;> cases rb <;> simp [eitherWith, eitherResult, ha, hb]

/-- C7: `andThenResult` drives the left schedule while it continues
(emitting its outputs tagged as the left phase); when the left step
signals `Done` that terminal value is consumed — never emitted — and the
very same call steps the right schedule with the same `(now, input)`,
moving the phase pointer to the right side; from the right phase the
combinator is exactly the right step (tagged) and never switches back.
Consequently `andThen(recurs(2), recurs(3))` emits exactly 2 + 3 = 5
continuing outputs before terminating. -/
theorem andThen_sequential_spec :
    (∀ (I O₁ O₂ : Type) (a : Schedule I O₁) (b : Schedule I O₂)
        (sa : a.σ) (now : ℚ) (input : I),
        (andThenResult a b).step (.inA sa) now input
          = match a.step sa now input with
            | (sa', .cont o d) => (.inA sa', .cont (Sum.inl o) d)
            | (_, .done _) =>
              (.inB (b.step b.init now input).1,
               mapResult Sum.inr (b.step b.init now input).2))
    ∧ (∀ (I O₁ O₂ : Type) (a : Schedule I O₁) (b : Schedule I O₂)
        (sb : b.σ) (now : ℚ) (input : I),
        (andThenResult a b).step (.inB sb) now input
          = (.inB (b.step sb now input).1,
             mapResult Sum.inr (b.step sb now input).2))
    ∧ trace (andThen (recurs 2) (recurs 3)) (callsAtZero 6)
        = [.cont 0 0, .cont 1 0, .cont 0 0, .cont 1 0, .cont 2 0,
           .done 3] := by
  refine ⟨?_, fun _ _ _ _ _ _ _ _ => rfl, by decide⟩
  intro I O₁ O₂ a b sa now input
  rcases ha : a.step sa now input with ⟨sa', ra⟩
  cases ra <;> simp [andThenResult, ha]

theorem jitterFormula_bounds (d r : ℚ) (hd : 0 ≤ d) (h0 : 0 ≤ r)
    (h1 : r < 1) :
    0.8 * d ≤ jitterFormula d r ∧ jitterFormula d r ≤ 1.2 * d := by
  unfold jitterFormula
  constructor
  · nlinarith [mul_nonneg hd h0]
  · nlinarith [mul_nonneg hd (by linarith : (0 : ℚ) ≤ 1 - r)]

theorem jittered_spaced_traceFrom (rs : ℕ → ℚ)
    (hrs : ∀ j, 0 ≤ rs j ∧ rs j < 1) :
    ∀ (calls : List (ℚ × Unit)) (ms : MetaState) (k : ℕ),
      ∀ r ∈ traceFrom (jittered (spaced 100) rs) (ms, k) calls,
        ∃ o dl, r = .cont o dl ∧ 80 ≤ dl ∧ dl ≤ 120 := by
  intro calls
  induction calls with
  | nil => intro ms k r hr; simp [traceFrom] at hr
  | cons c rest ih =>
    intro ms k r hr
    have hstep : (jittered (spaced (I := Unit) 100) rs).step (ms, k) c.1 c.2
        = ((⟨ms.n + 1, some c.1, some (ms.start.getD c.1)⟩, k + 1),
           .cont ms.n (jitterFormula 100 (rs k))) := rfl
    simp only [traceFrom, hstep] at hr
    rcases List.mem_cons.1 hr with h | htail
    · have hb := jitterFormula_bounds 100 (rs k) (by norm_num) (hrs k).1
        (hrs k).2
      norm_num at hb
      exact ⟨ms.n, jitterFormula 100 (rs k), h, hb.1, hb.2⟩
    · exact ih _ _ r htail

/-- C8: `jittered` never alters the output or the continue/done decision:
on a continuing inner step with delay `d` it consumes one fresh random
draw `r` and continues with the same output and delay
`d * 0.8 * (1 - r) + d * 1.2 * r`, which for `r` in `[0, 1)` and a
nonnegative delay always lies within `[0.8 * d, 1.2 * d]`; a `Done` passes
through untouched with no draw consumed.  In particular every delay
produced by `jittered` over `spaced(100)` lies within `[80, 120]`. -/
theorem jittered_delay_spec :
    (∀ (I O : Type) (self : Schedule I O) (rs : ℕ → ℚ) (s : self.σ)
        (k : ℕ) (now : ℚ) (input : I) (s' : self.σ) (o : O) (d : ℚ),
        self.step s now input = (s', .cont o d) →
          (jittered self rs).step (s, k) now input
            = ((s', k + 1), .cont o (jitterFormula d (rs k)))
          ∧ (0 ≤ rs k → rs k < 1 → 0 ≤ d →
              0.8 * d ≤ jitterFormula d (rs k)
              ∧ jitterFormula d (rs k) ≤ 1.2 * d))
    ∧ (∀ (I O : Type) (self : Schedule I O) (rs : ℕ → ℚ) (s : self.σ)
        (k : ℕ) (now : ℚ) (input : I) (s' : self.σ) (o : O),
        self.step s now input = (s', .done o) →
          (jittered self rs).step (s, k) now input = ((s', k), .done o))
    ∧ (∀ (rs : ℕ → ℚ), (∀ j, 0 ≤ rs j ∧ rs j < 1) →
        ∀ (calls : List (ℚ × Unit)),
          ∀ r ∈ trace (jittered (spaced 100) rs) calls,
            ∃ o dl, r = .cont o dl ∧ 80 ≤ dl ∧ dl ≤ 120) := by
  refine ⟨?_, ?_, ?_⟩
  · intro I O self rs s k now input s' o d h
    exact ⟨by simp [jittered, h],
      fun h0 h1 hd => jitterFormula_bounds d (rs k) hd h0 h1⟩
  · intro I O self rs s k now input s' o h
    simp [jittered, h]
  · intro rs hrs calls r hr
    exact jittered_spaced_traceFrom rs hrs calls MetaState.initial 0 r hr

/-- Witness for C8: the first part applied to the first step of
`jittered(spaced(100))` with the concrete draw 1/2, discharging the range
hypotheses there. -/
theorem jittered_delay_spec_witness :
    (jittered (spaced (I := Unit) 100) (fun _ => 1/2)).step
        (MetaState.initial, 0) 0 ()
      = ((⟨1, some 0, some 0⟩, 1), .cont 0 (jitterFormula 100 (1/2)))
    ∧ (0.8 * 100 ≤ jitterFormula 100 (1/2)
        ∧ jitterFormula 100 (1/2) ≤ 1.2 * 100) := by
  have h := jittered_delay_spec.1 Unit ℕ (spaced 100) (fun _ => 1/2)
    MetaState.initial 0 0 () ⟨1, some 0, some 0⟩ 0 100 rfl
  exact ⟨h.1, h.2 (by norm_num) (by norm_num) (by norm_num)⟩

end ScheduleSpec
